import Mathlib

set_option maxHeartbeats 1000000

/- Verification of the execution-event tracing model around
   src/libs/core/langchain_core/runnables/schema.py: the `_EventData` and
   `StreamEvent` typedefs, and the event-emitter contract their
   documentation fixes. -/

/-- A universe of dynamic values standing in for the `Any`-typed fields of the
schema: strings, integers, lists and string-keyed dicts. -/
inductive Val : Type where
  | str : String → Val
  | int : Int → Val
  | list : List Val → Val
  | dict : List (String × Val) → Val

abbrev Dict := List (String × Val)

/-- Embeds the TypedDict `_EventData` of schema.py: three independently
optional (`NotRequired`) fields `input`, `output`, `chunk`. -/
structure EventData where
  input : Option Val
  output : Option Val
  chunk : Option Val

/-- Embeds the TypedDict `StreamEvent` of schema.py: `event`, `name`,
`run_id` and `data` are required; `tags` and `metadata` are `NotRequired`. -/
structure StreamEvent where
  event : String
  name : String
  run_id : String
  tags : Option (List String)
  metadata : Option Dict
  data : EventData

/-- The reserved runnable kinds named by the docstring of
`StreamEvent.event`: llm, prompt, tool, chain. -/
inductive Kind : Type where
  | llm | prompt | tool | chain
deriving DecidableEq

def Kind.str : Kind → String
  | .llm => "llm"
  | .prompt => "prompt"
  | .tool => "tool"
  | .chain => "chain"

/-- The three lifecycle phases of the docstring of `StreamEvent.event`:
start, stream, end (`stop` here, since `end` is a Lean keyword). -/
inductive Phase : Type where
  | start | stream | stop
deriving DecidableEq

def Phase.str : Phase → String
  | .start => "start"
  | .stream => "stream"
  | .stop => "end"

/-- Event names are of the format `on_[runnable_type]_(start|stream|end)`. -/
def mkEventName (k : Kind) (p : Phase) : String :=
  "on_" ++ k.str ++ "_" ++ p.str

/-- Recovers the phase of one of the twelve reserved event names. -/
def phaseOf (s : String) : Option Phase :=
  if s = "on_llm_start" ∨ s = "on_prompt_start" ∨ s = "on_tool_start" ∨ s = "on_chain_start" then
    some Phase.start
  else if s = "on_llm_stream" ∨ s = "on_prompt_stream" ∨ s = "on_tool_stream" ∨ s = "on_chain_stream" then
    some Phase.stream
  else if s = "on_llm_end" ∨ s = "on_prompt_end" ∨ s = "on_tool_end" ∨ s = "on_chain_end" then
    some Phase.stop
  else none

def isStartB (e : StreamEvent) : Bool := decide (phaseOf e.event = some Phase.start)

def isStreamB (e : StreamEvent) : Bool := decide (phaseOf e.event = some Phase.stream)

def isEndB (e : StreamEvent) : Bool := decide (phaseOf e.event = some Phase.stop)

/- ---------------------------------------------------------------------
   TypedDict conformance, for the claims about which payload shapes the
   schema itself accepts or rejects.  A TypedDict value is a dict; a dict
   conforms to the TypedDict when its keys are among the declared ones
   (each at most once), every required key is present, and each present
   value has the declared type.  `Any`-typed values are unconstrained.
   --------------------------------------------------------------------- -/

def edKeys : List String := ["input", "output", "chunk"]

def seKeys : List String := ["event", "name", "run_id", "tags", "metadata", "data"]

def keysNodup : List String → Bool
  | [] => true
  | k :: rest => (!(rest.contains k)) && keysNodup rest

/-- TypedDict conformance for `_EventData`: keys among input/output/chunk,
each at most once; all three fields are `NotRequired` and `Any`-typed, so
nothing else is checked. -/
def isEventDataDict (d : Dict) : Bool :=
  d.all (fun kv => edKeys.contains kv.1) && keysNodup (d.map Prod.fst)

def isStrV : Option Val → Bool
  | some (.str _) => true
  | _ => false

def optTagsV : Option Val → Bool
  | none => true
  | some (.list l) => l.all (fun x => match x with | .str _ => true | _ => false)
  | _ => false

def optMetaV : Option Val → Bool
  | none => true
  | some (.dict _) => true
  | _ => false

def dataV : Option Val → Bool
  | some (.dict pd) => isEventDataDict pd
  | _ => false

/-- TypedDict conformance for `StreamEvent`: keys among the six declared
ones, `event`/`name`/`run_id` present as strings, `data` present and
conforming to `_EventData`; `tags`/`metadata` optional but typed when
present. -/
def isStreamEventDict (d : Dict) : Bool :=
  d.all (fun kv => seKeys.contains kv.1) && keysNodup (d.map Prod.fst) &&
  isStrV (d.lookup "event") && isStrV (d.lookup "name") &&
  isStrV (d.lookup "run_id") && dataV (d.lookup "data") &&
  optTagsV (d.lookup "tags") && optMetaV (d.lookup "metadata")

def optEntry (k : String) : Option Val → Dict
  | some v => [(k, v)]
  | none => []

/-- Builds the `_EventData` dict having exactly the given present fields. -/
def edDict (i o c : Option Val) : Dict :=
  optEntry "input" i ++ optEntry "output" o ++ optEntry "chunk" c

/-- Builds a `StreamEvent` dict from its fields. -/
def seDict (ev nm rid : String) (tags meta : Option Val) (d : Dict) : Dict :=
  [("event", .str ev), ("name", .str nm), ("run_id", .str rid)] ++
  optEntry "tags" tags ++ optEntry "metadata" meta ++ [("data", .dict d)]

/-- The stream-phase payload shape of §4.1: exactly `chunk` populated,
`input` and `output` absent. -/
def exactlyChunkDict (d : Dict) : Bool :=
  (d.lookup "input").isNone && (d.lookup "output").isNone && (d.lookup "chunk").isSome

/- ---------------------------------------------------------------------
   The emitter / run tracker.  The tracker itself is not part of this
   repository's source (only the `StreamEvent` schema is); its contract is
   fixed by the spec and by the schema docstrings, and is modelled below.
   --------------------------------------------------------------------- -/

/-- Modelled from the spec: dict merge in which the second argument's keys
win on collision (the Python double-splat merge of parent metadata with the
unit's own), as an association list searched left to right. -/
def mergeMeta (parent own : Dict) : Dict := own ++ parent

/-- The tag/metadata context a run inherits from its parent run. -/
structure Ctx where
  tags : List String
  meta : Dict

/-- Modelled from the spec: a run's terminal outcome — completion with an
optionally explicit output, or failure/cancellation before completion. -/
inductive Outcome : Type where
  | failed : Outcome
  | completed : Option Val → Outcome

/-- Modelled from the spec: the per-invocation description of one unit of
work — its name and kind, the tags/metadata bound statically to the unit,
the tags/metadata supplied by the caller at invocation time, its input
(and whether that input is known synchronously at start), and its terminal
outcome. -/
structure RunInfo where
  name : String
  kind : Kind
  staticTags : List String
  callTags : List String
  staticMeta : Dict
  callMeta : Dict
  input : Val
  inputAtStart : Bool
  outcome : Outcome

mutual
/-- Modelled from the spec: one run together with its nested structure. -/
inductive RunTree : Type where
  | node : RunInfo → Body → RunTree
/-- Modelled from the spec: the body of a run in real emission order — each
step either streams one chunk of the run's own output or executes one
nested child run whose events interleave with the parent's. -/
inductive Body : Type where
  | nil : Body
  | chunk : Val → Body → Body
  | child : RunTree → Body → Body
end

/-- A run's resolved tags: the parent's resolved tags united with the tags
bound statically to the unit and the tags supplied at invocation time. -/
def resolveTags (parent : List String) (i : RunInfo) : List String :=
  parent ++ i.staticTags ++ i.callTags

/-- The unit's own metadata: statically bound keys merged with
invocation-time keys. -/
def ownMeta (i : RunInfo) : Dict := mergeMeta i.staticMeta i.callMeta

/-- A run's resolved metadata: the parent's keys merged with the unit's own
keys, the unit's own value winning on collision. -/
def resolveMeta (parent : Dict) (i : RunInfo) : Dict :=
  mergeMeta parent (ownMeta i)

/-- The context a run passes down to its children: its own resolved
tags/metadata, fixed at the moment the run starts. -/
def resCtx (ctx : Ctx) (i : RunInfo) : Ctx :=
  ⟨resolveTags ctx.tags i, resolveMeta ctx.meta i⟩

/-- The chunks a body streams for the run's own output, in emission order. -/
def chunksOf : Body → List Val
  | .nil => []
  | .chunk c r => c :: chunksOf r
  | .child _ r => chunksOf r

/-- Modelled from the spec: the combine operation of the addable-chunk
contract, supplied by the output type — concatenation for strings and
lists, addition for integers, key merge for dicts. -/
def Val.combine : Val → Val → Val
  | .str a, .str b => .str (a ++ b)
  | .int a, .int b => .int (a + b)
  | .list a, .list b => .list (a ++ b)
  | .dict a, .dict b => .dict (mergeMeta a b)
  | a, _ => a

/-- Accumulates a chunk sequence with the combine operation; `none` when no
chunk was streamed. -/
def combineChunks : List Val → Option Val
  | [] => none
  | c :: cs => some (cs.foldl Val.combine c)

mutual
/-- Number of runs (invocations) a tree performs. -/
def runCount : RunTree → Nat
  | .node _ b => 1 + bodyCount b
/-- Number of runs the children of a body perform. -/
def bodyCount : Body → Nat
  | .nil => 0
  | .chunk _ r => bodyCount r
  | .child t r => runCount t + bodyCount r
end

/-- Modelled from the spec: the fresh run-identifier supply.  Collision
resistance of the random identifiers is modelled by an injective
deterministic supply indexed by the allocation counter. -/
def freshId (n : Nat) : String :=
  ⟨'r' :: 'u' :: 'n' :: List.replicate n '+'⟩

/-- The `_start` envelope of a run: the input when known synchronously. -/
def startEvt (i : RunInfo) (rid : String) (tg : List String) (md : Dict) : StreamEvent :=
  { event := mkEventName i.kind .start, name := i.name, run_id := rid,
    tags := some tg, metadata := some md,
    data := { input := if i.inputAtStart then some i.input else none,
              output := none, chunk := none } }

/-- A `_stream` envelope: exactly the chunk populated. -/
def streamEvt (k : Kind) (nm rid : String) (tg : List String) (md : Dict) (c : Val) : StreamEvent :=
  { event := mkEventName k .stream, name := nm, run_id := rid,
    tags := some tg, metadata := some md,
    data := { input := none, output := none, chunk := some c } }

/-- The output reported on the `_end` envelope: the explicitly computed
result when there is one, else the accumulated combination of the emitted
chunks. -/
def endOutput (b : Body) : Option Val → Option Val
  | some v => some v
  | none => combineChunks (chunksOf b)

/-- The `_end` envelope of a completed run: output (and the input, when it
was not known at start); no chunk. -/
def endEvt (i : RunInfo) (b : Body) (rid : String) (tg : List String) (md : Dict)
    (o : Option Val) : StreamEvent :=
  { event := mkEventName i.kind .stop, name := i.name, run_id := rid,
    tags := some tg, metadata := some md,
    data := { input := if i.inputAtStart then none else some i.input,
              output := endOutput b o, chunk := none } }

/-- The `_end` envelopes of a run: exactly one when the run completed, none
when it failed or was cancelled before completion. -/
def endEvts (i : RunInfo) (b : Body) (rid : String) (tg : List String) (md : Dict) :
    List StreamEvent :=
  match i.outcome with
  | .failed => []
  | .completed o => [endEvt i b rid tg md o]

mutual
/-- Modelled from the spec: the per-run emitter state machine of §4.2,
which is not part of this repository's source.  Emitting a run resolves
its tags/metadata from the parent context, allocates a fresh run id, emits
`_start`, then the body's `_stream` envelopes interleaved with the full
event sequences of nested child runs in emission order, then `_end` on
completion.  Returns the emitted events and the advanced allocation
counter. -/
def emitRun : RunTree → Ctx → Nat → List StreamEvent × Nat
  | .node i b, ctx, n =>
    let rid := freshId n
    let tg := resolveTags ctx.tags i
    let md := resolveMeta ctx.meta i
    let r := emitBody b i.kind i.name rid tg md (n + 1)
    (startEvt i rid tg md :: (r.1 ++ endEvts i b rid tg md), r.2)
/-- Modelled from the spec: emits a run body — one `_stream` envelope per
chunk of the run's own output, and recursively the events of each child
run, children inheriting the parent's resolved context. -/
def emitBody : Body → Kind → String → String → List String → Dict → Nat → List StreamEvent × Nat
  | .nil, _, _, _, _, _, n => ([], n)
  | .chunk c rest, k, nm, rid, tg, md, n =>
    let r := emitBody rest k nm rid tg md n
    (streamEvt k nm rid tg md c :: r.1, r.2)
  | .child t rest, k, nm, rid, tg, md, n =>
    let rc := emitRun t ⟨tg, md⟩ n
    let r := emitBody rest k nm rid tg md rc.2
    (rc.1 ++ r.1, r.2)
end

/-- The subsequence of a trace carrying one run id, in emission order. -/
def eventsFor (tr : List StreamEvent) (r : String) : List StreamEvent :=
  tr.filter (fun e => e.run_id == r)

/-- The run ids carried by the `_start` events of a trace. -/
def startIds (tr : List StreamEvent) : List String :=
  (tr.filter (fun e => isStartB e)).map (fun e => e.run_id)

/-- The chunks carried by the `_stream` events of an event list, in order. -/
def streamChunksOf (l : List StreamEvent) : List Val :=
  (l.filter (fun e => isStreamB e)).filterMap (fun e => e.data.chunk)

/-- The full event list of one run, as it appears filtered out of a trace:
its start envelope, its stream envelopes in chunk order, and its end
envelope exactly when the run completed. -/
def expectedRun (i : RunInfo) (b : Body) (cj : Ctx) (m : Nat) : List StreamEvent :=
  startEvt i (freshId m) (resolveTags cj.tags i) (resolveMeta cj.meta i) ::
    ((chunksOf b).map (streamEvt i.kind i.name (freshId m) (resolveTags cj.tags i) (resolveMeta cj.meta i)) ++
      endEvts i b (freshId m) (resolveTags cj.tags i) (resolveMeta cj.meta i))

def runCompleted (i : RunInfo) : Bool :=
  match i.outcome with
  | .failed => false
  | .completed _ => true

/-- The tracker's cross-check of §4.2/§7: an explicitly supplied output must
equal the accumulated combination of the emitted chunks whenever both are
available (a mismatch is surfaced as a defect, never silently resolved). -/
def chunkConsistent (i : RunInfo) (b : Body) : Prop :=
  ∀ v, i.outcome = .completed (some v) → chunksOf b ≠ [] →
    combineChunks (chunksOf b) = some v

/- ---------------------------------------------------------------------
   Basic lemmas about the emitter.
   --------------------------------------------------------------------- -/

theorem freshId_injective {m n : Nat} (h : freshId m = freshId n) : m = n := by
  have h2 := congrArg (fun s => s.data.length) h
  simp only [freshId, List.length_cons, List.length_replicate] at h2
  omega

theorem phaseOf_mkEventName : ∀ (k : Kind) (p : Phase), phaseOf (mkEventName k p) = some p := by
  intro k p; cases k <;> cases p <;> decide

@[simp] theorem startEvt_run_id (i : RunInfo) (rid : String) (tg : List String) (md : Dict) :
    (startEvt i rid tg md).run_id = rid := rfl

@[simp] theorem streamEvt_run_id (k : Kind) (nm rid : String) (tg : List String) (md : Dict) (c : Val) :
    (streamEvt k nm rid tg md c).run_id = rid := rfl

@[simp] theorem endEvt_run_id (i : RunInfo) (b : Body) (rid : String) (tg : List String) (md : Dict) (o : Option Val) :
    (endEvt i b rid tg md o).run_id = rid := rfl

@[simp] theorem startEvt_tags (i : RunInfo) (rid : String) (tg : List String) (md : Dict) :
    (startEvt i rid tg md).tags = some tg := rfl

@[simp] theorem streamEvt_tags (k : Kind) (nm rid : String) (tg : List String) (md : Dict) (c : Val) :
    (streamEvt k nm rid tg md c).tags = some tg := rfl

@[simp] theorem endEvt_tags (i : RunInfo) (b : Body) (rid : String) (tg : List String) (md : Dict) (o : Option Val) :
    (endEvt i b rid tg md o).tags = some tg := rfl

@[simp] theorem startEvt_metadata (i : RunInfo) (rid : String) (tg : List String) (md : Dict) :
    (startEvt i rid tg md).metadata = some md := rfl

@[simp] theorem streamEvt_metadata (k : Kind) (nm rid : String) (tg : List String) (md : Dict) (c : Val) :
    (streamEvt k nm rid tg md c).metadata = some md := rfl

@[simp] theorem endEvt_metadata (i : RunInfo) (b : Body) (rid : String) (tg : List String) (md : Dict) (o : Option Val) :
    (endEvt i b rid tg md o).metadata = some md := rfl

@[simp] theorem isStartB_startEvt (i : RunInfo) (rid : String) (tg : List String) (md : Dict) :
    isStartB (startEvt i rid tg md) = true := by
  simp [isStartB, startEvt, phaseOf_mkEventName]

@[simp] theorem isStartB_streamEvt (k : Kind) (nm rid : String) (tg : List String) (md : Dict) (c : Val) :
    isStartB (streamEvt k nm rid tg md c) = false := by
  simp [isStartB, streamEvt, phaseOf_mkEventName]

@[simp] theorem isStartB_endEvt (i : RunInfo) (b : Body) (rid : String) (tg : List String) (md : Dict) (o : Option Val) :
    isStartB (endEvt i b rid tg md o) = false := by
  simp [isStartB, endEvt, phaseOf_mkEventName]

@[simp] theorem isStreamB_startEvt (i : RunInfo) (rid : String) (tg : List String) (md : Dict) :
    isStreamB (startEvt i rid tg md) = false := by
  simp [isStreamB, startEvt, phaseOf_mkEventName]

@[simp] theorem isStreamB_streamEvt (k : Kind) (nm rid : String) (tg : List String) (md : Dict) (c : Val) :
    isStreamB (streamEvt k nm rid tg md c) = true := by
  simp [isStreamB, streamEvt, phaseOf_mkEventName]

@[simp] theorem isStreamB_endEvt (i : RunInfo) (b : Body) (rid : String) (tg : List String) (md : Dict) (o : Option Val) :
    isStreamB (endEvt i b rid tg md o) = false := by
  simp [isStreamB, endEvt, phaseOf_mkEventName]

@[simp] theorem isEndB_startEvt (i : RunInfo) (rid : String) (tg : List String) (md : Dict) :
    isEndB (startEvt i rid tg md) = false := by
  simp [isEndB, startEvt, phaseOf_mkEventName]

@[simp] theorem isEndB_streamEvt (k : Kind) (nm rid : String) (tg : List String) (md : Dict) (c : Val) :
    isEndB (streamEvt k nm rid tg md c) = false := by
  simp [isEndB, streamEvt, phaseOf_mkEventName]

@[simp] theorem isEndB_endEvt (i : RunInfo) (b : Body) (rid : String) (tg : List String) (md : Dict) (o : Option Val) :
    isEndB (endEvt i b rid tg md o) = true := by
  simp [isEndB, endEvt, phaseOf_mkEventName]

theorem not_isStreamB_of_isStartB {e : StreamEvent} (h : isStartB e = true) :
    isStreamB e = false := by
  simp only [isStartB, decide_eq_true_eq] at h
  simp [isStreamB, h]

theorem not_isEndB_of_isStartB {e : StreamEvent} (h : isStartB e = true) :
    isEndB e = false := by
  simp only [isStartB, decide_eq_true_eq] at h
  simp [isEndB, h]

theorem not_isEndB_of_isStreamB {e : StreamEvent} (h : isStreamB e = true) :
    isEndB e = false := by
  simp only [isStreamB, decide_eq_true_eq] at h
  simp [isEndB, h]

/-- Unfolding equation for `emitRun` at a node. -/
theorem emitRun_unfold (i : RunInfo) (b : Body) (ctx : Ctx) (n : Nat) :
    emitRun (.node i b) ctx n =
      (startEvt i (freshId n) (resolveTags ctx.tags i) (resolveMeta ctx.meta i) ::
        ((emitBody b i.kind i.name (freshId n) (resolveTags ctx.tags i) (resolveMeta ctx.meta i) (n + 1)).1 ++
          endEvts i b (freshId n) (resolveTags ctx.tags i) (resolveMeta ctx.meta i)),
       (emitBody b i.kind i.name (freshId n) (resolveTags ctx.tags i) (resolveMeta ctx.meta i) (n + 1)).2) := rfl

theorem emitBody_unfold_nil (k : Kind) (nm rid : String) (tg : List String) (md : Dict) (n : Nat) :
    emitBody .nil k nm rid tg md n = ([], n) := rfl

theorem emitBody_unfold_chunk (c : Val) (rest : Body) (k : Kind) (nm rid : String)
    (tg : List String) (md : Dict) (n : Nat) :
    emitBody (.chunk c rest) k nm rid tg md n =
      (streamEvt k nm rid tg md c :: (emitBody rest k nm rid tg md n).1,
       (emitBody rest k nm rid tg md n).2) := rfl

theorem emitBody_unfold_child (t : RunTree) (rest : Body) (k : Kind) (nm rid : String)
    (tg : List String) (md : Dict) (n : Nat) :
    emitBody (.child t rest) k nm rid tg md n =
      ((emitRun t ⟨tg, md⟩ n).1 ++ (emitBody rest k nm rid tg md (emitRun t ⟨tg, md⟩ n).2).1,
       (emitBody rest k nm rid tg md (emitRun t ⟨tg, md⟩ n).2).2) := rfl

mutual
theorem emitRun_counter : ∀ (t : RunTree) (ctx : Ctx) (n : Nat),
    (emitRun t ctx n).2 = n + runCount t
  | .node i b, ctx, n => by
    rw [emitRun_unfold]
    show (emitBody b i.kind i.name (freshId n) (resolveTags ctx.tags i) (resolveMeta ctx.meta i) (n + 1)).2
        = n + runCount (.node i b)
    rw [emitBody_counter]
    show n + 1 + bodyCount b = n + (1 + bodyCount b)
    omega
theorem emitBody_counter : ∀ (b : Body) (k : Kind) (nm rid : String) (tg : List String)
    (md : Dict) (n : Nat), (emitBody b k nm rid tg md n).2 = n + bodyCount b
  | .nil, _, _, _, _, _, n => by simp [emitBody_unfold_nil, bodyCount]
  | .chunk c rest, k, nm, rid, tg, md, n => by
    rw [emitBody_unfold_chunk]
    show (emitBody rest k nm rid tg md n).2 = n + bodyCount (.chunk c rest)
    rw [emitBody_counter]
    rfl
  | .child t rest, k, nm, rid, tg, md, n => by
    rw [emitBody_unfold_child]
    show (emitBody rest k nm rid tg md (emitRun t ⟨tg, md⟩ n).2).2 = n + bodyCount (.child t rest)
    rw [emitBody_counter, emitRun_counter]
    show n + runCount t + bodyCount rest = n + (runCount t + bodyCount rest)
    omega
end

theorem mem_endEvts (i : RunInfo) (b : Body) (rid : String) (tg : List String) (md : Dict) :
    ∀ e ∈ endEvts i b rid tg md, ∃ o, i.outcome = .completed o ∧ e = endEvt i b rid tg md o := by
  intro e he
  unfold endEvts at he
  cases h : i.outcome with
  | failed => rw [h] at he; simp at he
  | completed o =>
    rw [h] at he
    simp only [List.mem_singleton] at he
    exact ⟨o, rfl, he⟩

theorem eventsFor_append (l1 l2 : List StreamEvent) (r : String) :
    eventsFor (l1 ++ l2) r = eventsFor l1 r ++ eventsFor l2 r :=
  List.filter_append l1 l2

theorem eventsFor_cons_self {e : StreamEvent} {r : String} (h : e.run_id = r)
    (tr : List StreamEvent) : eventsFor (e :: tr) r = e :: eventsFor tr r := by
  simp [eventsFor, List.filter_cons, h]

theorem eventsFor_cons_ne {e : StreamEvent} {r : String} (h : e.run_id ≠ r)
    (tr : List StreamEvent) : eventsFor (e :: tr) r = eventsFor tr r := by
  simp [eventsFor, List.filter_cons, h]

theorem eventsFor_endEvts_self (i : RunInfo) (b : Body) (rid : String) (tg : List String)
    (md : Dict) : eventsFor (endEvts i b rid tg md) rid = endEvts i b rid tg md := by
  unfold endEvts
  cases i.outcome <;> simp [eventsFor, List.filter_cons]

theorem eventsFor_endEvts_ne (i : RunInfo) (b : Body) (rid : String) (tg : List String)
    (md : Dict) (r : String) (h : rid ≠ r) : eventsFor (endEvts i b rid tg md) r = [] := by
  unfold endEvts
  cases i.outcome <;> simp [eventsFor, List.filter_cons, h]

mutual
theorem emitRun_ids : ∀ (t : RunTree) (ctx : Ctx) (n : Nat) (e : StreamEvent),
    e ∈ (emitRun t ctx n).1 → ∃ m, n ≤ m ∧ m < n + runCount t ∧ e.run_id = freshId m
  | .node i b, ctx, n, e => by
    intro he
    rw [emitRun_unfold] at he
    simp only [List.mem_cons, List.mem_append] at he
    have hrc : runCount (.node i b) = 1 + bodyCount b := rfl
    rcases he with he | he | he
    · exact ⟨n, le_refl n, by omega, by rw [he]; rfl⟩
    · rcases emitBody_ids b i.kind i.name (freshId n) (resolveTags ctx.tags i)
        (resolveMeta ctx.meta i) (n + 1) e he with h | ⟨m, h1, h2, h3⟩
      · exact ⟨n, le_refl n, by omega, h⟩
      · exact ⟨m, by omega, by omega, h3⟩
    · rcases mem_endEvts i b (freshId n) (resolveTags ctx.tags i) (resolveMeta ctx.meta i)
        e he with ⟨o, _, rfl⟩
      exact ⟨n, le_refl n, by omega, rfl⟩
theorem emitBody_ids : ∀ (b : Body) (k : Kind) (nm rid : String) (tg : List String)
    (md : Dict) (n : Nat) (e : StreamEvent),
    e ∈ (emitBody b k nm rid tg md n).1 →
    e.run_id = rid ∨ ∃ m, n ≤ m ∧ m < n + bodyCount b ∧ e.run_id = freshId m
  | .nil, k, nm, rid, tg, md, n, e => by
    intro he
    rw [emitBody_unfold_nil] at he
    simp at he
  | .chunk c rest, k, nm, rid, tg, md, n, e => by
    intro he
    rw [emitBody_unfold_chunk] at he
    simp only [List.mem_cons] at he
    have hbc : bodyCount (.chunk c rest) = bodyCount rest := rfl
    rcases he with he | he
    · exact Or.inl (by rw [he]; rfl)
    · rcases emitBody_ids rest k nm rid tg md n e he with h | ⟨m, h1, h2, h3⟩
      · exact Or.inl h
      · exact Or.inr ⟨m, h1, by omega, h3⟩
  | .child t rest, k, nm, rid, tg, md, n, e => by
    intro he
    rw [emitBody_unfold_child] at he
    simp only [List.mem_append] at he
    have hbc : bodyCount (.child t rest) = runCount t + bodyCount rest := rfl
    rcases he with he | he
    · rcases emitRun_ids t ⟨tg, md⟩ n e he with ⟨m, h1, h2, h3⟩
      exact Or.inr ⟨m, h1, by omega, h3⟩
    · rw [emitRun_counter] at he
      rcases emitBody_ids rest k nm rid tg md (n + runCount t) e he with h | ⟨m, h1, h2, h3⟩
      · exact Or.inl h
      · exact Or.inr ⟨m, by omega, by omega, h3⟩
end

theorem eventsFor_emitRun_nil (t : RunTree) (ctx : Ctx) (n : Nat) (r : String)
    (h : ∀ m, n ≤ m → m < n + runCount t → freshId m ≠ r) :
    eventsFor (emitRun t ctx n).1 r = [] := by
  unfold eventsFor
  rw [List.filter_eq_nil_iff]
  intro e he
  rcases emitRun_ids t ctx n e he with ⟨m, h1, h2, h3⟩
  rw [beq_iff_eq, h3]
  exact h m h1 h2

theorem eventsFor_emitBody_nil (b : Body) (k : Kind) (nm rid : String) (tg : List String)
    (md : Dict) (n : Nat) (r : String) (hrid : rid ≠ r)
    (h : ∀ m, n ≤ m → m < n + bodyCount b → freshId m ≠ r) :
    eventsFor (emitBody b k nm rid tg md n).1 r = [] := by
  unfold eventsFor
  rw [List.filter_eq_nil_iff]
  intro e he
  rcases emitBody_ids b k nm rid tg md n e he with h3 | ⟨m, h1, h2, h3⟩
  · rw [beq_iff_eq, h3]; exact hrid
  · rw [beq_iff_eq, h3]; exact h m h1 h2

theorem eventsFor_emitBody_self : ∀ (b : Body) (k : Kind) (nm : String) (tg : List String)
    (md : Dict) (n p : Nat), p < n →
    eventsFor (emitBody b k nm (freshId p) tg md n).1 (freshId p)
      = (chunksOf b).map (streamEvt k nm (freshId p) tg md)
  | .nil, k, nm, tg, md, n, p => by
    intro hp
    rw [emitBody_unfold_nil]
    rfl
  | .chunk c rest, k, nm, tg, md, n, p => by
    intro hp
    rw [emitBody_unfold_chunk, eventsFor_cons_self (streamEvt_run_id k nm (freshId p) tg md c),
      eventsFor_emitBody_self rest k nm tg md n p hp]
    rfl
  | .child t rest, k, nm, tg, md, n, p => by
    intro hp
    rw [emitBody_unfold_child, eventsFor_append]
    have hchild : eventsFor (emitRun t ⟨tg, md⟩ n).1 (freshId p) = [] := by
      apply eventsFor_emitRun_nil
      intro m h1 h2 hc
      have := freshId_injective hc
      omega
    have hlt : p < (emitRun t ⟨tg, md⟩ n).2 := by
      rw [emitRun_counter]; omega
    rw [hchild, eventsFor_emitBody_self rest k nm tg md (emitRun t ⟨tg, md⟩ n).2 p hlt]
    rfl

/-- Locates a direct child run inside a body: `ChildAt b nb t nc` holds when
the body `b`, emitted with allocation counter `nb`, invokes the direct child
run `t` with allocation counter `nc`. -/
inductive ChildAt : Body → Nat → RunTree → Nat → Prop where
  | here : ∀ t rest n, ChildAt (.child t rest) n t n
  | skipChunk : ∀ c rest n t m, ChildAt rest n t m → ChildAt (.chunk c rest) n t m
  | skipChild : ∀ t2 rest n t m, ChildAt rest (n + runCount t2) t m → ChildAt (.child t2 rest) n t m

/-- The run occurrences of a trace: `SubRun t ctx n j bj cj m` holds when
emitting `t` under parent context `ctx` with allocation counter `n`
performs, somewhere in the nested structure, a run of the unit `j` with
body `bj`, whose parent-resolved context is `cj` and whose run id is the
`m`-th fresh identifier. -/
inductive SubRun : RunTree → Ctx → Nat → RunInfo → Body → Ctx → Nat → Prop where
  | here : ∀ i b ctx n, SubRun (.node i b) ctx n i b ctx n
  | step : ∀ i b ctx n tc nc j bj cj m,
      ChildAt b (n + 1) tc nc → SubRun tc (resCtx ctx i) nc j bj cj m →
      SubRun (.node i b) ctx n j bj cj m

theorem childAt_bounds : ∀ {b nb t nc}, ChildAt b nb t nc →
    nb ≤ nc ∧ nc + runCount t ≤ nb + bodyCount b := by
  intro b nb t nc h
  induction h with
  | here t rest n =>
    have hbc : bodyCount (.child t rest) = runCount t + bodyCount rest := rfl
    omega
  | skipChunk c rest n t m _ ih =>
    have hbc : bodyCount (.chunk c rest) = bodyCount rest := rfl
    omega
  | skipChild t2 rest n t m _ ih =>
    have hbc : bodyCount (.child t2 rest) = runCount t2 + bodyCount rest := rfl
    omega

theorem subRun_bounds : ∀ {t ctx n j bj cj m}, SubRun t ctx n j bj cj m →
    n ≤ m ∧ m < n + runCount t := by
  intro t ctx n j bj cj m h
  induction h with
  | here i b ctx n =>
    have hrc : runCount (.node i b) = 1 + bodyCount b := rfl
    omega
  | step i b ctx n tc nc j bj cj m hca _ ih =>
    have hc := childAt_bounds hca
    have hrc : runCount (.node i b) = 1 + bodyCount b := rfl
    omega

/-- Inside a body, the events carrying the id of a run nested in the child
located by `ChildAt` are exactly that child's own events carrying it. -/
theorem eventsFor_emitBody_childAt : ∀ {b nb tc nc}, ChildAt b nb tc nc →
    ∀ (k : Kind) (nm : String) (tg : List String) (md : Dict) (p m : Nat),
      p < nb → nc ≤ m → m < nc + runCount tc →
      eventsFor (emitBody b k nm (freshId p) tg md nb).1 (freshId m)
        = eventsFor (emitRun tc ⟨tg, md⟩ nc).1 (freshId m) := by
  intro b nb tc nc h
  induction h with
  | here t rest n =>
    intro k nm tg md p m hp hm1 hm2
    rw [emitBody_unfold_child, eventsFor_append]
    have hrest : eventsFor (emitBody rest k nm (freshId p) tg md (emitRun t ⟨tg, md⟩ n).2).1
        (freshId m) = [] := by
      rw [emitRun_counter]
      apply eventsFor_emitBody_nil
      · intro hc; have := freshId_injective hc; omega
      · intro m2 h1 h2 hc; have := freshId_injective hc; omega
    rw [hrest, List.append_nil]
  | skipChunk c rest n t m0 hca ih =>
    intro k nm tg md p m hp hm1 hm2
    have hb := childAt_bounds hca
    rw [emitBody_unfold_chunk]
    have hne : (streamEvt k nm (freshId p) tg md c).run_id ≠ freshId m := by
      intro hc
      have := freshId_injective hc
      omega
    rw [eventsFor_cons_ne hne]
    exact ih k nm tg md p m hp hm1 hm2
  | skipChild t2 rest n t m0 hca ih =>
    intro k nm tg md p m hp hm1 hm2
    have hb := childAt_bounds hca
    rw [emitBody_unfold_child, eventsFor_append]
    have hchild : eventsFor (emitRun t2 ⟨tg, md⟩ n).1 (freshId m) = [] := by
      apply eventsFor_emitRun_nil
      intro m2 h1 h2 hc
      have := freshId_injective hc
      omega
    rw [hchild, List.nil_append, emitRun_counter]
    exact ih k nm tg md p m (by omega) hm1 hm2

/-- The central characterization: the events of a trace carrying the run id
of one of its (sub-)runs are exactly that run's start envelope, its stream
envelopes in chunk order, and its end envelope when it completed — with the
run's resolved context fixed at start on every envelope. -/
theorem eventsFor_subRun : ∀ {t ctx n j bj cj m}, SubRun t ctx n j bj cj m →
    eventsFor (emitRun t ctx n).1 (freshId m) = expectedRun j bj cj m := by
  intro t ctx n j bj cj m h
  induction h with
  | here i b ctx n =>
    rw [emitRun_unfold]
    rw [eventsFor_cons_self (startEvt_run_id i (freshId n) (resolveTags ctx.tags i)
      (resolveMeta ctx.meta i)), eventsFor_append]
    rw [eventsFor_emitBody_self b i.kind i.name (resolveTags ctx.tags i)
      (resolveMeta ctx.meta i) (n + 1) n (by omega)]
    rw [eventsFor_endEvts_self]
    rfl
  | step i b ctx n tc nc j bj cj m hca hsub ih =>
    have hcb := childAt_bounds hca
    have hsb := subRun_bounds hsub
    rw [emitRun_unfold]
    have hne : (startEvt i (freshId n) (resolveTags ctx.tags i)
        (resolveMeta ctx.meta i)).run_id ≠ freshId m := by
      intro hc
      have := freshId_injective hc
      omega
    rw [eventsFor_cons_ne hne, eventsFor_append]
    have hends : eventsFor (endEvts i b (freshId n) (resolveTags ctx.tags i)
        (resolveMeta ctx.meta i)) (freshId m) = [] := by
      apply eventsFor_endEvts_ne
      intro hc
      have := freshId_injective hc
      omega
    rw [hends, List.append_nil]
    rw [eventsFor_emitBody_childAt hca i.kind i.name (resolveTags ctx.tags i)
      (resolveMeta ctx.meta i) n m (by omega) hsb.1 hsb.2]
    exact ih

mutual
theorem emitRun_covers : ∀ (t : RunTree) (ctx : Ctx) (n : Nat) (e : StreamEvent),
    e ∈ (emitRun t ctx n).1 →
    ∃ j bj cj m, SubRun t ctx n j bj cj m ∧ e.run_id = freshId m
  | .node i b, ctx, n, e => by
    intro he
    rw [emitRun_unfold] at he
    simp only [List.mem_cons, List.mem_append] at he
    rcases he with he | he | he
    · exact ⟨i, b, ctx, n, .here i b ctx n, by rw [he]; rfl⟩
    · rcases emitBody_covers b i.kind i.name (freshId n) (resolveTags ctx.tags i)
        (resolveMeta ctx.meta i) (n + 1) e he with h | ⟨tc, nc, hca, j, bj, cj, m, hsub, hid⟩
      · exact ⟨i, b, ctx, n, .here i b ctx n, h⟩
      · exact ⟨j, bj, cj, m, .step i b ctx n tc nc j bj cj m hca hsub, hid⟩
    · rcases mem_endEvts i b (freshId n) (resolveTags ctx.tags i) (resolveMeta ctx.meta i)
        e he with ⟨o, _, rfl⟩
      exact ⟨i, b, ctx, n, .here i b ctx n, rfl⟩
theorem emitBody_covers : ∀ (b : Body) (k : Kind) (nm rid : String) (tg : List String)
    (md : Dict) (n : Nat) (e : StreamEvent),
    e ∈ (emitBody b k nm rid tg md n).1 →
    e.run_id = rid ∨ ∃ tc nc, ChildAt b n tc nc ∧
      ∃ j bj cj m, SubRun tc ⟨tg, md⟩ nc j bj cj m ∧ e.run_id = freshId m
  | .nil, k, nm, rid, tg, md, n, e => by
    intro he
    rw [emitBody_unfold_nil] at he
    simp at he
  | .chunk c rest, k, nm, rid, tg, md, n, e => by
    intro he
    rw [emitBody_unfold_chunk] at he
    simp only [List.mem_cons] at he
    rcases he with he | he
    · exact Or.inl (by rw [he]; rfl)
    · rcases emitBody_covers rest k nm rid tg md n e he with h | ⟨tc, nc, hca, rest2⟩
      · exact Or.inl h
      · exact Or.inr ⟨tc, nc, .skipChunk c rest n tc nc hca, rest2⟩
  | .child t rest, k, nm, rid, tg, md, n, e => by
    intro he
    rw [emitBody_unfold_child] at he
    simp only [List.mem_append] at he
    rcases he with he | he
    · rcases emitRun_covers t ⟨tg, md⟩ n e he with ⟨j, bj, cj, m, hsub, hid⟩
      exact Or.inr ⟨t, n, .here t rest n, j, bj, cj, m, hsub, hid⟩
    · rw [emitRun_counter] at he
      rcases emitBody_covers rest k nm rid tg md (n + runCount t) e he with h | ⟨tc, nc, hca, rest2⟩
      · exact Or.inl h
      · exact Or.inr ⟨tc, nc, .skipChild t rest n tc nc hca, rest2⟩
end

theorem startIds_cons_start {e : StreamEvent} (tr : List StreamEvent) (h : isStartB e = true) :
    startIds (e :: tr) = e.run_id :: startIds tr := by
  simp [startIds, List.filter_cons, h]

theorem startIds_cons_nonstart {e : StreamEvent} (tr : List StreamEvent) (h : isStartB e = false) :
    startIds (e :: tr) = startIds tr := by
  simp [startIds, List.filter_cons, h]

theorem startIds_append (l1 l2 : List StreamEvent) :
    startIds (l1 ++ l2) = startIds l1 ++ startIds l2 := by
  simp [startIds, List.filter_append]

theorem startIds_endEvts (i : RunInfo) (b : Body) (rid : String) (tg : List String) (md : Dict) :
    startIds (endEvts i b rid tg md) = [] := by
  unfold endEvts
  cases i.outcome <;> simp [startIds, List.filter_cons]

mutual
theorem emitRun_startIds : ∀ (t : RunTree) (ctx : Ctx) (n : Nat),
    (startIds (emitRun t ctx n).1).Nodup ∧
    ∀ r ∈ startIds (emitRun t ctx n).1, ∃ m, n ≤ m ∧ m < n + runCount t ∧ r = freshId m
  | .node i b, ctx, n => by
    have hrc : runCount (.node i b) = 1 + bodyCount b := rfl
    rcases emitBody_startIds b i.kind i.name (freshId n) (resolveTags ctx.tags i)
      (resolveMeta ctx.meta i) (n + 1) with ⟨hnd, hrange⟩
    rw [emitRun_unfold]
    rw [startIds_cons_start _ (isStartB_startEvt i (freshId n) (resolveTags ctx.tags i)
      (resolveMeta ctx.meta i)), startIds_append, startIds_endEvts, List.append_nil]
    constructor
    · rw [List.nodup_cons]
      refine ⟨fun hc => ?_, hnd⟩
      rcases hrange _ hc with ⟨m, h1, h2, h3⟩
      have := freshId_injective h3
      omega
    · intro r hr
      rw [List.mem_cons] at hr
      rcases hr with hr | hr
      · exact ⟨n, le_refl n, by omega, hr⟩
      · rcases hrange r hr with ⟨m, h1, h2, h3⟩
        exact ⟨m, by omega, by omega, h3⟩
theorem emitBody_startIds : ∀ (b : Body) (k : Kind) (nm rid : String) (tg : List String)
    (md : Dict) (n : Nat),
    (startIds (emitBody b k nm rid tg md n).1).Nodup ∧
    ∀ r ∈ startIds (emitBody b k nm rid tg md n).1,
      ∃ m, n ≤ m ∧ m < n + bodyCount b ∧ r = freshId m
  | .nil, k, nm, rid, tg, md, n => by
    rw [emitBody_unfold_nil]
    exact ⟨List.nodup_nil, by intro r hr; simp [startIds] at hr⟩
  | .chunk c rest, k, nm, rid, tg, md, n => by
    have hbc : bodyCount (.chunk c rest) = bodyCount rest := rfl
    rcases emitBody_startIds rest k nm rid tg md n with ⟨hnd, hrange⟩
    rw [emitBody_unfold_chunk]
    rw [startIds_cons_nonstart _ (isStartB_streamEvt k nm rid tg md c)]
    exact ⟨hnd, by intro r hr; rcases hrange r hr with ⟨m, h1, h2, h3⟩; exact ⟨m, h1, by omega, h3⟩⟩
  | .child t rest, k, nm, rid, tg, md, n => by
    have hbc : bodyCount (.child t rest) = runCount t + bodyCount rest := rfl
    rcases emitRun_startIds t ⟨tg, md⟩ n with ⟨hnd1, hrange1⟩
    rcases emitBody_startIds rest k nm rid tg md (n + runCount t) with ⟨hnd2, hrange2⟩
    rw [emitBody_unfold_child, emitRun_counter, startIds_append]
    constructor
    · refine List.Nodup.append hnd1 hnd2 ?_
      intro r hr1 hr2
      rcases hrange1 r hr1 with ⟨m1, ha1, ha2, ha3⟩
      rcases hrange2 r hr2 with ⟨m2, hb1, hb2, hb3⟩
      rw [ha3] at hb3
      have := freshId_injective hb3
      omega
    · intro r hr
      rw [List.mem_append] at hr
      rcases hr with hr | hr
      · rcases hrange1 r hr with ⟨m, h1, h2, h3⟩
        exact ⟨m, h1, by omega, h3⟩
      · rcases hrange2 r hr with ⟨m, h1, h2, h3⟩
        exact ⟨m, by omega, by omega, h3⟩
end

mutual
theorem emitRun_streamShape : ∀ (t : RunTree) (ctx : Ctx) (n : Nat) (e : StreamEvent),
    e ∈ (emitRun t ctx n).1 → isStreamB e = true →
    e.data.input = none ∧ e.data.output = none ∧ e.data.chunk.isSome = true
  | .node i b, ctx, n, e => by
    intro he hs
    rw [emitRun_unfold] at he
    simp only [List.mem_cons, List.mem_append] at he
    rcases he with he | he | he
    · rw [he] at hs
      rw [isStreamB_startEvt] at hs
      exact absurd hs (by simp)
    · exact emitBody_streamShape b i.kind i.name (freshId n) (resolveTags ctx.tags i)
        (resolveMeta ctx.meta i) (n + 1) e he hs
    · rcases mem_endEvts i b (freshId n) (resolveTags ctx.tags i) (resolveMeta ctx.meta i)
        e he with ⟨o, _, rfl⟩
      rw [isStreamB_endEvt] at hs
      exact absurd hs (by simp)
theorem emitBody_streamShape : ∀ (b : Body) (k : Kind) (nm rid : String) (tg : List String)
    (md : Dict) (n : Nat) (e : StreamEvent),
    e ∈ (emitBody b k nm rid tg md n).1 → isStreamB e = true →
    e.data.input = none ∧ e.data.output = none ∧ e.data.chunk.isSome = true
  | .nil, k, nm, rid, tg, md, n, e => by
    intro he _
    rw [emitBody_unfold_nil] at he
    simp at he
  | .chunk c rest, k, nm, rid, tg, md, n, e => by
    intro he hs
    rw [emitBody_unfold_chunk] at he
    simp only [List.mem_cons] at he
    rcases he with he | he
    · rw [he]
      exact ⟨rfl, rfl, rfl⟩
    · exact emitBody_streamShape rest k nm rid tg md n e he hs
  | .child t rest, k, nm, rid, tg, md, n, e => by
    intro he hs
    rw [emitBody_unfold_child] at he
    simp only [List.mem_append] at he
    rcases he with he | he
    · exact emitRun_streamShape t ⟨tg, md⟩ n e he hs
    · exact emitBody_streamShape rest k nm rid tg md (emitRun t ⟨tg, md⟩ n).2 e he hs
end

mutual
theorem emitRun_eventShape : ∀ (t : RunTree) (ctx : Ctx) (n : Nat) (e : StreamEvent),
    e ∈ (emitRun t ctx n).1 → ∃ k p, e.event = mkEventName k p
  | .node i b, ctx, n, e => by
    intro he
    rw [emitRun_unfold] at he
    simp only [List.mem_cons, List.mem_append] at he
    rcases he with he | he | he
    · exact ⟨i.kind, .start, by rw [he]; rfl⟩
    · exact emitBody_eventShape b i.kind i.name (freshId n) (resolveTags ctx.tags i)
        (resolveMeta ctx.meta i) (n + 1) e he
    · rcases mem_endEvts i b (freshId n) (resolveTags ctx.tags i) (resolveMeta ctx.meta i)
        e he with ⟨o, _, rfl⟩
      exact ⟨i.kind, .stop, rfl⟩
theorem emitBody_eventShape : ∀ (b : Body) (k : Kind) (nm rid : String) (tg : List String)
    (md : Dict) (n : Nat) (e : StreamEvent),
    e ∈ (emitBody b k nm rid tg md n).1 → ∃ k2 p, e.event = mkEventName k2 p
  | .nil, k, nm, rid, tg, md, n, e => by
    intro he
    rw [emitBody_unfold_nil] at he
    simp at he
  | .chunk c rest, k, nm, rid, tg, md, n, e => by
    intro he
    rw [emitBody_unfold_chunk] at he
    simp only [List.mem_cons] at he
    rcases he with he | he
    · exact ⟨k, .stream, by rw [he]; rfl⟩
    · exact emitBody_eventShape rest k nm rid tg md n e he
  | .child t rest, k, nm, rid, tg, md, n, e => by
    intro he
    rw [emitBody_unfold_child] at he
    simp only [List.mem_append] at he
    rcases he with he | he
    · exact emitRun_eventShape t ⟨tg, md⟩ n e he
    · exact emitBody_eventShape rest k nm rid tg md (emitRun t ⟨tg, md⟩ n).2 e he
end

theorem expectedRun_tags (j : RunInfo) (bj : Body) (cj : Ctx) (m : Nat) :
    ∀ e ∈ expectedRun j bj cj m, e.tags = some (resolveTags cj.tags j) := by
  intro e he
  unfold expectedRun at he
  simp only [List.mem_cons, List.mem_append] at he
  rcases he with rfl | he | he
  · rfl
  · rcases List.mem_map.1 he with ⟨c, _, rfl⟩
    rfl
  · rcases mem_endEvts j bj _ _ _ e he with ⟨o, _, rfl⟩
    rfl

theorem expectedRun_metadata (j : RunInfo) (bj : Body) (cj : Ctx) (m : Nat) :
    ∀ e ∈ expectedRun j bj cj m, e.metadata = some (resolveMeta cj.meta j) := by
  intro e he
  unfold expectedRun at he
  simp only [List.mem_cons, List.mem_append] at he
  rcases he with rfl | he | he
  · rfl
  · rcases List.mem_map.1 he with ⟨c, _, rfl⟩
    rfl
  · rcases mem_endEvts j bj _ _ _ e he with ⟨o, _, rfl⟩
    rfl

theorem countP_end_expectedRun (j : RunInfo) (bj : Body) (cj : Ctx) (m : Nat) :
    (expectedRun j bj cj m).countP isEndB = if runCompleted j then 1 else 0 := by
  unfold expectedRun
  rw [List.countP_cons, List.countP_append]
  have h1 : List.countP isEndB ((chunksOf bj).map (streamEvt j.kind j.name (freshId m)
      (resolveTags cj.tags j) (resolveMeta cj.meta j))) = 0 := by
    rw [List.countP_eq_zero]
    intro a ha
    rcases List.mem_map.1 ha with ⟨c, _, rfl⟩
    simp
  have h2 : List.countP isEndB (endEvts j bj (freshId m) (resolveTags cj.tags j)
      (resolveMeta cj.meta j)) = if runCompleted j then 1 else 0 := by
    unfold endEvts runCompleted
    cases j.outcome <;> simp [List.countP_cons]
  rw [h1, h2]
  simp

theorem append_cons_last {α : Type} (Q : α → Prop) : ∀ (pre : List α) (e : α) (A B : List α) (x : α),
    pre ++ [e] = A ++ x :: B → (∀ y ∈ pre, ¬ Q y) → Q x → B = [] := by
  intro pre
  induction pre with
  | nil =>
    intro e A B x heq hpre hx
    cases A with
    | nil =>
      simp only [List.nil_append] at heq
      rw [List.cons.injEq] at heq
      exact heq.2.symm
    | cons a A2 =>
      simp only [List.nil_append, List.cons_append, List.cons.injEq] at heq
      exact absurd heq.2.symm (by simp)
  | cons p pre2 ih =>
    intro e A B x heq hpre hx
    cases A with
    | nil =>
      simp only [List.cons_append, List.nil_append, List.cons.injEq] at heq
      exact absurd hx (by rw [← heq.1]; exact hpre p (List.mem_cons_self p pre2))
    | cons a A2 =>
      simp only [List.cons_append, List.cons.injEq] at heq
      exact ih e A2 B x heq.2 (fun y hy => hpre y (List.mem_cons_of_mem p hy)) hx

theorem mem_mids_not_end (j : RunInfo) (cs : List Val) (rid : String) (tg : List String)
    (md : Dict) : ∀ y ∈ cs.map (streamEvt j.kind j.name rid tg md), ¬ isEndB y = true := by
  intro y hy
  rcases List.mem_map.1 hy with ⟨c, _, rfl⟩
  simp

theorem expectedRun_ends_last (j : RunInfo) (bj : Body) (cj : Ctx) (m : Nat)
    (pre post : List StreamEvent) (e : StreamEvent)
    (heq : expectedRun j bj cj m = pre ++ e :: post) (hend : isEndB e = true) : post = [] := by
  unfold expectedRun endEvts at heq
  cases houtcome : j.outcome with
  | failed =>
    rw [houtcome] at heq
    rw [List.append_nil] at heq
    have he : e ∈ pre ++ e :: post := by simp
    rw [← heq] at he
    rw [List.mem_cons] at he
    rcases he with rfl | he
    · simp at hend
    · exact absurd hend (mem_mids_not_end j (chunksOf bj) _ _ _ e he)
  | completed o =>
    rw [houtcome] at heq
    rw [← List.cons_append] at heq
    apply append_cons_last (fun y => isEndB y = true) _ _ pre post e heq ?_ hend
    intro y hy
    rw [List.mem_cons] at hy
    rcases hy with rfl | hy
    · simp
    · exact mem_mids_not_end j (chunksOf bj) _ _ _ y hy

theorem mem_end_expectedRun (j : RunInfo) (bj : Body) (cj : Ctx) (m : Nat) (e : StreamEvent)
    (he : e ∈ expectedRun j bj cj m) (hend : isEndB e = true) :
    ∃ o, j.outcome = .completed o ∧
      e = endEvt j bj (freshId m) (resolveTags cj.tags j) (resolveMeta cj.meta j) o := by
  unfold expectedRun at he
  simp only [List.mem_cons, List.mem_append] at he
  rcases he with rfl | he | he
  · simp at hend
  · exact absurd hend (mem_mids_not_end j (chunksOf bj) _ _ _ e he)
  · exact mem_endEvts j bj _ _ _ e he

theorem streamChunksOf_expectedRun (j : RunInfo) (bj : Body) (cj : Ctx) (m : Nat) :
    streamChunksOf (expectedRun j bj cj m) = chunksOf bj := by
  unfold streamChunksOf expectedRun
  rw [List.filter_cons]
  simp only [isStreamB_startEvt, if_false, Bool.false_eq_true]
  rw [List.filter_append]
  have h1 : List.filter isStreamB ((chunksOf bj).map (streamEvt j.kind j.name (freshId m)
      (resolveTags cj.tags j) (resolveMeta cj.meta j)))
      = (chunksOf bj).map (streamEvt j.kind j.name (freshId m)
        (resolveTags cj.tags j) (resolveMeta cj.meta j)) := by
    rw [List.filter_eq_self]
    intro a ha
    rcases List.mem_map.1 ha with ⟨c, _, rfl⟩
    simp
  have h2 : List.filter isStreamB (endEvts j bj (freshId m) (resolveTags cj.tags j)
      (resolveMeta cj.meta j)) = [] := by
    unfold endEvts
    cases j.outcome <;> simp [List.filter_cons]
  rw [h1, h2, List.append_nil, List.filterMap_map]
  have h3 : ((fun e : StreamEvent => e.data.chunk) ∘ streamEvt j.kind j.name (freshId m)
      (resolveTags cj.tags j) (resolveMeta cj.meta j)) = some := by
    funext c
    rfl
  rw [h3, List.filterMap_some]

theorem mem_take_get {α : Type} : ∀ (l : List α) (k : Nat) (x : α), x ∈ l.take k →
    ∃ i, ∃ h : i < l.length, i < k ∧ l.get ⟨i, h⟩ = x := by
  intro l
  induction l with
  | nil => intro k x hx; simp at hx
  | cons a rest ih =>
    intro k x hx
    cases k with
    | zero => simp at hx
    | succ k2 =>
      rw [List.take_succ_cons, List.mem_cons] at hx
      rcases hx with rfl | hx
      · exact ⟨0, by simp, by omega, rfl⟩
      · rcases ih k2 x hx with ⟨i, h, h2, h3⟩
        refine ⟨i + 1, by simp; omega, by omega, ?_⟩
        simp only [List.get_eq_getElem, List.getElem_cons_succ]
        rw [List.get_eq_getElem] at h3
        exact h3

theorem get_mem_drop {α : Type} (l : List α) (d j : Nat) (h : j < l.length) (hd : d ≤ j) :
    l.get ⟨j, h⟩ ∈ l.drop d := by
  have h4 : d + (j - d) = j := by omega
  have h2 : j - d < (l.drop d).length := by
    rw [List.length_drop]; omega
  have h3 : (l.drop d).get ⟨j - d, h2⟩ = l.get ⟨j, h⟩ := by
    simp only [List.get_eq_getElem, List.getElem_drop]
    simp [h4]
  rw [← h3]
  exact List.get_mem _ _ _

theorem eventsFor_decomp (tr : List StreamEvent) (r : String) (j : Nat) (h : j < tr.length)
    (hid : (tr.get ⟨j, h⟩).run_id = r) :
    eventsFor tr r = eventsFor (tr.take j) r ++ tr.get ⟨j, h⟩ :: eventsFor (tr.drop (j + 1)) r := by
  conv_lhs => rw [← List.take_append_drop j tr]
  rw [eventsFor_append, List.drop_eq_getElem_cons h]
  congr 1
  have h5 : tr[j] = tr.get ⟨j, h⟩ := by rw [List.get_eq_getElem]
  rw [h5]
  exact eventsFor_cons_self hid _

theorem subRun_of_childAt : ∀ {t0 c0 n0 iP bP cP mP}, SubRun t0 c0 n0 iP bP cP mP →
    ∀ {tC nC}, ChildAt bP (mP + 1) tC nC →
    ∀ {iC bC}, tC = .node iC bC →
    SubRun t0 c0 n0 iC bC (resCtx cP iP) nC := by
  intro t0 c0 n0 iP bP cP mP h
  induction h with
  | here i b ctx n =>
    intro tC nC hca iC bC heq
    subst heq
    exact .step i b ctx n _ nC iC bC (resCtx ctx i) nC hca (.here iC bC (resCtx ctx i) nC)
  | step i b ctx n tc nc j bj cj m hca hsub ih =>
    intro tC nC hca2 iC bC heq
    exact .step i b ctx n tc nc iC bC (resCtx cj j) nC hca (ih hca2 heq)

theorem lookup_append_left {k : String} {v : Val} : ∀ (l1 l2 : Dict),
    l1.lookup k = some v → (l1 ++ l2).lookup k = some v := by
  intro l1
  induction l1 with
  | nil =>
    intro l2 h
    simp [List.lookup] at h
  | cons a rest ih =>
    intro l2 h
    rcases a with ⟨k2, v2⟩
    rw [List.cons_append]
    cases hk : (k == k2) with
    | true =>
      rw [List.lookup_cons] at h ⊢
      rw [hk] at h ⊢
      exact h
    | false =>
      rw [List.lookup_cons] at h ⊢
      rw [hk] at h ⊢
      exact ih l2 h

/- ---------------------------------------------------------------------
   Concrete inputs used by the scenario claim and the witnesses.
   --------------------------------------------------------------------- -/

def reverseInfo : RunInfo where
  name := "reverse"
  kind := .chain
  staticTags := []
  callTags := []
  staticMeta := []
  callMeta := []
  input := .str "hello"
  inputAtStart := true
  outcome := .completed none

def reverseBody : Body :=
  .chunk (.str "o") (.chunk (.str "l") (.chunk (.str "l") (.chunk (.str "e")
    (.chunk (.str "h") .nil))))

def reverseTree : RunTree := .node reverseInfo reverseBody

def wInfo : RunInfo where
  name := "w"
  kind := .llm
  staticTags := []
  callTags := []
  staticMeta := []
  callMeta := []
  input := .str "x"
  inputAtStart := true
  outcome := .completed (some (.str "ab"))

def wBody : Body := .chunk (.str "a") (.chunk (.str "b") .nil)

def wTree : RunTree := .node wInfo wBody

def cInfo : RunInfo where
  name := "c"
  kind := .tool
  staticTags := ["b"]
  callTags := []
  staticMeta := [("k", .str "v2")]
  callMeta := []
  input := .str "ci"
  inputAtStart := true
  outcome := .completed none

def cBody : Body := .nil

def cTree : RunTree := .node cInfo cBody

def pInfo : RunInfo where
  name := "p"
  kind := .chain
  staticTags := ["a"]
  callTags := []
  staticMeta := [("k", .str "v1")]
  callMeta := []
  input := .str "pi"
  inputAtStart := true
  outcome := .completed none

def pBody : Body := .child cTree .nil

def pTree : RunTree := .node pInfo pBody

def badStreamData : Dict := [("input", .str "i"), ("chunk", .str "c")]

def badStreamSE : Dict :=
  [("event", .str "on_chain_stream"), ("name", .str "n"), ("run_id", .str "r"),
   ("data", .dict badStreamData)]

def minimalSE : Dict :=
  [("event", .str "on_chain_start"), ("name", .str "n"), ("run_id", .str "r"),
   ("data", .dict [])]

/- ---------------------------------------------------------------------
   The claims.
   --------------------------------------------------------------------- -/

/-- C1, counterexample: the claim says a stream-phase envelope whose payload
does not have exactly `chunk` populated is rejected at construction time.
On the code it is not: `_EventData` makes all three fields independently
`NotRequired`, so a stream envelope whose `data` has `input` populated
alongside `chunk` is a well-formed value of the `StreamEvent` TypedDict —
construction succeeds and no error is raised. -/
theorem C1_counterexample :
    isStreamEventDict badStreamSE = true ∧
    badStreamSE.lookup "event" = some (.str "on_chain_stream") ∧
    phaseOf "on_chain_stream" = some Phase.stream ∧
    badStreamSE.lookup "data" = some (.dict badStreamData) ∧
    exactlyChunkDict badStreamData = false :=
  ⟨rfl, rfl, by decide, rfl, rfl⟩

/-- C1, amended: the schema types impose no construction-time phase check;
the exactly-`chunk` shape of stream payloads is instead an emitter-side
contract, and every `_stream` envelope the modelled tracker emits does have
exactly `chunk` populated — `input` and `output` absent, `chunk` present. -/
theorem C1_streamPayloadContract (t : RunTree) (ctx : Ctx) (n : Nat) (e : StreamEvent)
    (he : e ∈ (emitRun t ctx n).1) (hs : isStreamB e = true) :
    e.data.input = none ∧ e.data.output = none ∧ e.data.chunk.isSome = true :=
  emitRun_streamShape t ctx n e he hs

/-- Witness for C1: the first stream envelope of a concrete trace. -/
theorem C1_streamPayloadContract_witness :
    (streamEvt .llm "w" (freshId 0) [] [] (.str "a")).data.input = none ∧
    (streamEvt .llm "w" (freshId 0) [] [] (.str "a")).data.output = none ∧
    (streamEvt .llm "w" (freshId 0) [] [] (.str "a")).data.chunk.isSome = true :=
  C1_streamPayloadContract wTree ⟨[], []⟩ 0 (streamEvt .llm "w" (freshId 0) [] [] (.str "a"))
    (List.Mem.tail _ (List.Mem.head _)) rfl

/-- C7: within one trace no two distinct invocations share a run id — the
run ids carried by the `_start` events of any emitted trace are pairwise
distinct, the id supply being fresh and independent per invocation. -/
theorem C7_runIdUniqueness (t : RunTree) (ctx : Ctx) (n : Nat) :
    (startIds (emitRun t ctx n).1).Nodup :=
  (emitRun_startIds t ctx n).1

/-- C8: every emitted envelope's `event` field has the fixed shape
`on_<unit-kind>_<phase>` with kind among llm/prompt/tool/chain and phase
among start/stream/end. -/
theorem C8_eventNameShape (t : RunTree) (ctx : Ctx) (n : Nat) (e : StreamEvent)
    (he : e ∈ (emitRun t ctx n).1) : ∃ k p, e.event = mkEventName k p :=
  emitRun_eventShape t ctx n e he

/-- Witness for C8: the start envelope of a concrete trace. -/
theorem C8_eventNameShape_witness :
    ∃ k p, (startEvt wInfo (freshId 0) [] []).event = mkEventName k p :=
  C8_eventNameShape wTree ⟨[], []⟩ 0 (startEvt wInfo (freshId 0) [] []) (List.Mem.head _)

/-- C9: the unit named "reverse" invoked on "hello", streaming the chunks
"o","l","l","e","h" under string concatenation, emits exactly
`on_chain_start` with input "hello", five `on_chain_stream` envelopes
carrying "o","l","l","e","h" in order, then `on_chain_end` with output
"olleh" — all envelopes sharing one run id, tags `[]` and metadata `{}`. -/
theorem C9_reverseScenario :
    emitRun reverseTree ⟨[], []⟩ 0 =
      ([{ event := "on_chain_start", name := "reverse", run_id := freshId 0,
          tags := some [], metadata := some [],
          data := { input := some (.str "hello"), output := none, chunk := none } },
        { event := "on_chain_stream", name := "reverse", run_id := freshId 0,
          tags := some [], metadata := some [],
          data := { input := none, output := none, chunk := some (.str "o") } },
        { event := "on_chain_stream", name := "reverse", run_id := freshId 0,
          tags := some [], metadata := some [],
          data := { input := none, output := none, chunk := some (.str "l") } },
        { event := "on_chain_stream", name := "reverse", run_id := freshId 0,
          tags := some [], metadata := some [],
          data := { input := none, output := none, chunk := some (.str "l") } },
        { event := "on_chain_stream", name := "reverse", run_id := freshId 0,
          tags := some [], metadata := some [],
          data := { input := none, output := none, chunk := some (.str "e") } },
        { event := "on_chain_stream", name := "reverse", run_id := freshId 0,
          tags := some [], metadata := some [],
          data := { input := none, output := none, chunk := some (.str "h") } },
        { event := "on_chain_end", name := "reverse", run_id := freshId 0,
          tags := some [], metadata := some [],
          data := { input := none, output := some (.str "olleh"), chunk := none } }], 1) :=
  rfl

theorem isSome_of_isStrV {x : Option Val} (h : isStrV x = true) : x.isSome = true := by
  cases x with
  | none => simp [isStrV] at h
  | some v => rfl

theorem isSome_of_dataV {x : Option Val} (h : dataV x = true) : x.isSome = true := by
  cases x with
  | none => simp [dataV] at h
  | some v => rfl

/-- C10: the `StreamEvent` TypedDict makes `event`, `name`, `run_id` and
`data` mandatory (with `data` possibly the empty payload) while `tags` and
`metadata` may be absent entirely, and `_EventData` accepts every
combination of presence/absence of `input`, `output`, `chunk` — including
all three absent and all three present — so the type itself imposes no
phase-dependent mutual exclusion on the payload. -/
theorem C10_schemaShape :
    (∀ i o c : Option Val, isEventDataDict (edDict i o c) = true) ∧
    (∀ d : Dict, isStreamEventDict d = true →
      (d.lookup "event").isSome = true ∧ (d.lookup "name").isSome = true ∧
      (d.lookup "run_id").isSome = true ∧ (d.lookup "data").isSome = true) ∧
    isStreamEventDict minimalSE = true ∧
    (∀ i o c : Option Val,
      isStreamEventDict (seDict "on_chain_stream" "n" "r" none none (edDict i o c)) = true) := by
  refine ⟨?_, ?_, rfl, ?_⟩
  · intro i o c
    rcases i with _ | vi <;> rcases o with _ | vo <;> rcases c with _ | vc <;> rfl
  · intro d hd
    unfold isStreamEventDict at hd
    simp only [Bool.and_eq_true] at hd
    obtain ⟨⟨⟨⟨⟨⟨⟨h1, h2⟩, h3⟩, h4⟩, h5⟩, h6⟩, h7⟩, h8⟩ := hd
    exact ⟨isSome_of_isStrV h3, isSome_of_isStrV h4, isSome_of_isStrV h5, isSome_of_dataV h6⟩
  · intro i o c
    rcases i with _ | vi <;> rcases o with _ | vo <;> rcases c with _ | vc <;> rfl

/-- Witness for C10: all three payload fields present at once is accepted,
and a minimal envelope without tags/metadata has its four required keys. -/
theorem C10_schemaShape_witness :
    isEventDataDict (edDict (some (.str "i")) (some (.str "o")) (some (.str "c"))) = true ∧
    ((minimalSE.lookup "event").isSome = true ∧ (minimalSE.lookup "name").isSome = true ∧
      (minimalSE.lookup "run_id").isSome = true ∧ (minimalSE.lookup "data").isSome = true) :=
  ⟨C10_schemaShape.1 (some (.str "i")) (some (.str "o")) (some (.str "c")),
   C10_schemaShape.2.1 minimalSE C10_schemaShape.2.2.1⟩

/-- C2: for every run of the trace, if the run's events include stream
envelopes and an end envelope carrying an output, then folding the chunks
of the run's stream envelopes in emission order with the combine operation
yields exactly that output.  The hypothesis `chunkConsistent` is the
tracker's own §4.2/§7 guarantee that an explicitly supplied output agrees
with the accumulated chunks (a mismatch being a surfaced defect). -/
theorem C2_chunkAggregation (t : RunTree) (ctx : Ctx) (n : Nat) (j : RunInfo) (bj : Body)
    (cj : Ctx) (m : Nat) (hsub : SubRun t ctx n j bj cj m) (hcons : chunkConsistent j bj)
    (e : StreamEvent) (v : Val) (he : e ∈ eventsFor (emitRun t ctx n).1 (freshId m))
    (hend : isEndB e = true) (hout : e.data.output = some v)
    (hstreams : streamChunksOf (eventsFor (emitRun t ctx n).1 (freshId m)) ≠ []) :
    combineChunks (streamChunksOf (eventsFor (emitRun t ctx n).1 (freshId m))) = some v := by
  have hchar := eventsFor_subRun hsub
  rw [hchar] at he hstreams ⊢
  rw [streamChunksOf_expectedRun] at hstreams ⊢
  rcases mem_end_expectedRun j bj cj m e he hend with ⟨o, houtc, rfl⟩
  have hout2 : endOutput bj o = some v := hout
  cases o with
  | none =>
    unfold endOutput at hout2
    exact hout2
  | some v0 =>
    unfold endOutput at hout2
    rw [Option.some.injEq] at hout2
    subst hout2
    exact hcons v0 houtc hstreams

/-- Witness for C2: a concrete completed run streaming "a" then "b" with
explicit output "ab": the folded chunks equal the end envelope's output. -/
theorem C2_chunkAggregation_witness :
    combineChunks (streamChunksOf (eventsFor (emitRun wTree ⟨[], []⟩ 0).1 (freshId 0)))
      = some (.str "ab") :=
  C2_chunkAggregation wTree ⟨[], []⟩ 0 wInfo wBody ⟨[], []⟩ 0
    (SubRun.here wInfo wBody ⟨[], []⟩ 0)
    (by
      intro v hv _
      cases Option.some.inj (Outcome.completed.inj hv)
      rfl)
    (endEvt wInfo wBody (freshId 0) [] [] (some (.str "ab"))) (.str "ab")
    (List.Mem.tail _ (List.Mem.tail _ (List.Mem.tail _ (List.Mem.head _))))
    rfl rfl
    (by intro hc; exact absurd hc (List.cons_ne_nil _ _))

/-- C3: for every run id appearing in a `_start` event of a trace, the
trace contains exactly one `_end` event with that id when the run
completed and none when it failed, and any `_end` event with that id is
the last event carrying it. -/
theorem C3_endPairing (t : RunTree) (ctx : Ctx) (n : Nat) (r : String)
    (hstart : ∃ e, e ∈ (emitRun t ctx n).1 ∧ isStartB e = true ∧ e.run_id = r) :
    ∃ j bj cj m, SubRun t ctx n j bj cj m ∧ r = freshId m ∧
      (eventsFor (emitRun t ctx n).1 r).countP isEndB = (if runCompleted j then 1 else 0) ∧
      ∀ pre e post, eventsFor (emitRun t ctx n).1 r = pre ++ e :: post →
        isEndB e = true → post = [] := by
  rcases hstart with ⟨e, he, _, hid⟩
  rcases emitRun_covers t ctx n e he with ⟨j, bj, cj, m, hsub, hid2⟩
  have hr : r = freshId m := by rw [← hid, hid2]
  subst hr
  have hchar := eventsFor_subRun hsub
  refine ⟨j, bj, cj, m, hsub, rfl, ?_, ?_⟩
  · rw [hchar]
    exact countP_end_expectedRun j bj cj m
  · intro pre e2 post heq hend
    rw [hchar] at heq
    exact expectedRun_ends_last j bj cj m pre post e2 heq hend

/-- Witness for C3: the concrete completed run of `wTree` has exactly one
end event, in last position among its events. -/
theorem C3_endPairing_witness :
    ∃ j bj cj m, SubRun wTree ⟨[], []⟩ 0 j bj cj m ∧ freshId 0 = freshId m ∧
      (eventsFor (emitRun wTree ⟨[], []⟩ 0).1 (freshId 0)).countP isEndB
        = (if runCompleted j then 1 else 0) ∧
      ∀ pre e post, eventsFor (emitRun wTree ⟨[], []⟩ 0).1 (freshId 0) = pre ++ e :: post →
        isEndB e = true → post = [] :=
  C3_endPairing wTree ⟨[], []⟩ 0 (freshId 0)
    ⟨startEvt wInfo (freshId 0) [] [], List.Mem.head _, rfl, rfl⟩

/-- C5: a child run's resolved tag set, fixed at the moment it starts, is
the union of the parent's resolved tags with the child's own statically
bound and invocation-time tags — hence a superset of the parent's resolved
tag set — while the parent's own envelopes keep the parent's resolved tags
unchanged. -/
theorem C5_tagInheritance (t0 : RunTree) (c0 : Ctx) (n0 : Nat) (iP : RunInfo) (bP : Body)
    (cP : Ctx) (mP : Nat) (tC : RunTree) (nC : Nat) (iC : RunInfo) (bC : Body)
    (hsub : SubRun t0 c0 n0 iP bP cP mP) (hca : ChildAt bP (mP + 1) tC nC)
    (heq : tC = .node iC bC) :
    (∀ e ∈ eventsFor (emitRun t0 c0 n0).1 (freshId nC),
        e.tags = some (resolveTags (resolveTags cP.tags iP) iC)) ∧
    (resolveTags (resolveTags cP.tags iP) iC).toFinset
      = (resolveTags cP.tags iP).toFinset ∪ (iC.staticTags.toFinset ∪ iC.callTags.toFinset) ∧
    (resolveTags cP.tags iP).toFinset ⊆ (resolveTags (resolveTags cP.tags iP) iC).toFinset ∧
    (∀ e ∈ eventsFor (emitRun t0 c0 n0).1 (freshId mP),
        e.tags = some (resolveTags cP.tags iP)) := by
  have hsubC := subRun_of_childAt hsub hca heq
  have hcharC := eventsFor_subRun hsubC
  have hcharP := eventsFor_subRun hsub
  refine ⟨?_, ?_, ?_, ?_⟩
  · intro e he
    rw [hcharC] at he
    exact expectedRun_tags iC bC (resCtx cP iP) nC e he
  · unfold resolveTags
    rw [List.toFinset_append, List.toFinset_append, Finset.union_assoc]
  · unfold resolveTags
    simp only [List.toFinset_append]
    exact Finset.subset_union_left.trans Finset.subset_union_left
  · intro e he
    rw [hcharP] at he
    exact expectedRun_tags iP bP cP mP e he

/-- Witness for C5: parent bound with tag "a", child with tag "b": the
child's envelopes carry tags a,b (the union), the parent's keep a. -/
theorem C5_tagInheritance_witness :
    (∀ e ∈ eventsFor (emitRun pTree ⟨[], []⟩ 0).1 (freshId 1),
        e.tags = some (resolveTags (resolveTags [] pInfo) cInfo)) ∧
    (resolveTags (resolveTags [] pInfo) cInfo).toFinset
      = (resolveTags [] pInfo).toFinset ∪ (cInfo.staticTags.toFinset ∪ cInfo.callTags.toFinset) ∧
    (resolveTags [] pInfo).toFinset ⊆ (resolveTags (resolveTags [] pInfo) cInfo).toFinset ∧
    (∀ e ∈ eventsFor (emitRun pTree ⟨[], []⟩ 0).1 (freshId 0),
        e.tags = some (resolveTags [] pInfo)) :=
  C5_tagInheritance pTree ⟨[], []⟩ 0 pInfo pBody ⟨[], []⟩ 0 cTree 1 cInfo cBody
    (SubRun.here pInfo pBody ⟨[], []⟩ 0) (ChildAt.here cTree .nil 1) rfl

/-- C6: a child run's resolved metadata is the parent's keys merged with
the child's own keys, and on a key both define the child's own value wins:
the child's envelopes carry the merged metadata and look up the child's
value at the colliding key. -/
theorem C6_metadataOverride (t0 : RunTree) (c0 : Ctx) (n0 : Nat) (iP : RunInfo) (bP : Body)
    (cP : Ctx) (mP : Nat) (tC : RunTree) (nC : Nat) (iC : RunInfo) (bC : Body)
    (k : String) (v1 v2 : Val)
    (hsub : SubRun t0 c0 n0 iP bP cP mP) (hca : ChildAt bP (mP + 1) tC nC)
    (heq : tC = .node iC bC)
    (_hp : (resolveMeta cP.meta iP).lookup k = some v1)
    (hc : (ownMeta iC).lookup k = some v2) :
    (∀ e ∈ eventsFor (emitRun t0 c0 n0).1 (freshId nC),
        e.metadata = some (resolveMeta (resolveMeta cP.meta iP) iC)) ∧
    (resolveMeta (resolveMeta cP.meta iP) iC).lookup k = some v2 ∧
    ((resolveMeta (resolveMeta cP.meta iP) iC).map Prod.fst).toFinset
      = ((ownMeta iC).map Prod.fst).toFinset ∪ ((resolveMeta cP.meta iP).map Prod.fst).toFinset := by
  have hsubC := subRun_of_childAt hsub hca heq
  have hcharC := eventsFor_subRun hsubC
  refine ⟨?_, ?_, ?_⟩
  · intro e he
    rw [hcharC] at he
    exact expectedRun_metadata iC bC (resCtx cP iP) nC e he
  · unfold resolveMeta mergeMeta
    exact lookup_append_left (ownMeta iC) (resolveMeta cP.meta iP) hc
  · unfold resolveMeta mergeMeta
    rw [List.map_append, List.toFinset_append]

/-- Witness for C6: parent metadata has k = v1, child defines k = v2; the
child's resolved metadata maps k to v2. -/
theorem C6_metadataOverride_witness :
    (∀ e ∈ eventsFor (emitRun pTree ⟨[], []⟩ 0).1 (freshId 1),
        e.metadata = some (resolveMeta (resolveMeta [] pInfo) cInfo)) ∧
    (resolveMeta (resolveMeta [] pInfo) cInfo).lookup "k" = some (.str "v2") ∧
    ((resolveMeta (resolveMeta [] pInfo) cInfo).map Prod.fst).toFinset
      = ((ownMeta cInfo).map Prod.fst).toFinset ∪
        ((resolveMeta [] pInfo).map Prod.fst).toFinset :=
  C6_metadataOverride pTree ⟨[], []⟩ 0 pInfo pBody ⟨[], []⟩ 0 cTree 1 cInfo cBody
    "k" (.str "v1") (.str "v2")
    (SubRun.here pInfo pBody ⟨[], []⟩ 0) (ChildAt.here cTree .nil 1) rfl rfl rfl

/-- C4: every `_stream` envelope occurs strictly after the `_start`
envelope carrying its run id and strictly before any `_end` envelope
carrying its run id, in emission order (by position in the trace). -/
theorem C4_streamOrdering (t : RunTree) (ctx : Ctx) (n : Nat) (jdx : Nat)
    (h : jdx < (emitRun t ctx n).1.length)
    (hs : isStreamB ((emitRun t ctx n).1.get ⟨jdx, h⟩) = true) :
    (∃ idx, ∃ h2 : idx < (emitRun t ctx n).1.length, idx < jdx ∧
        isStartB ((emitRun t ctx n).1.get ⟨idx, h2⟩) = true ∧
        ((emitRun t ctx n).1.get ⟨idx, h2⟩).run_id = ((emitRun t ctx n).1.get ⟨jdx, h⟩).run_id) ∧
    (∀ kdx, ∀ h3 : kdx < (emitRun t ctx n).1.length,
        isEndB ((emitRun t ctx n).1.get ⟨kdx, h3⟩) = true →
        ((emitRun t ctx n).1.get ⟨kdx, h3⟩).run_id = ((emitRun t ctx n).1.get ⟨jdx, h⟩).run_id →
        jdx < kdx) := by
  rcases emitRun_covers t ctx n _ (List.get_mem (emitRun t ctx n).1 jdx h)
    with ⟨j, bj, cj, m, hsub, hidm⟩
  have hchar := eventsFor_subRun hsub
  have hdec := eventsFor_decomp (emitRun t ctx n).1 (freshId m) jdx h hidm
  rw [hchar] at hdec
  constructor
  · cases hA : eventsFor ((emitRun t ctx n).1.take jdx) (freshId m) with
    | nil =>
      rw [hA, List.nil_append] at hdec
      unfold expectedRun at hdec
      rw [List.cons.injEq] at hdec
      exfalso
      have hst := isStartB_startEvt j (freshId m) (resolveTags cj.tags j) (resolveMeta cj.meta j)
      rw [hdec.1] at hst
      rw [not_isStreamB_of_isStartB hst] at hs
      exact Bool.noConfusion hs
    | cons a A2 =>
      rw [hA] at hdec
      unfold expectedRun at hdec
      rw [List.cons_append, List.cons.injEq] at hdec
      have haMem : a ∈ eventsFor ((emitRun t ctx n).1.take jdx) (freshId m) := by
        rw [hA]
        exact List.Mem.head _
      unfold eventsFor at haMem
      have haTake := (List.mem_filter.1 haMem).1
      have haId := (List.mem_filter.1 haMem).2
      rcases mem_take_get _ jdx a haTake with ⟨idx, h2, hlt, hget⟩
      refine ⟨idx, h2, hlt, ?_, ?_⟩
      · rw [hget, ← hdec.1]
        exact isStartB_startEvt j (freshId m) (resolveTags cj.tags j) (resolveMeta cj.meta j)
      · rw [hget, hidm]
        exact beq_iff_eq.1 haId
  · intro kdx h3 hek hidk
    have hidk2 : ((emitRun t ctx n).1.get ⟨kdx, h3⟩).run_id = freshId m := by
      rw [hidk, hidm]
    rcases Nat.lt_trichotomy jdx kdx with hlt | heq2 | hgt
    · exact hlt
    · exfalso
      subst heq2
      have hek2 : isEndB ((emitRun t ctx n).1.get ⟨jdx, h⟩) = true := hek
      rw [not_isEndB_of_isStreamB hs] at hek2
      exact Bool.noConfusion hek2
    · exfalso
      have hdec2 := eventsFor_decomp (emitRun t ctx n).1 (freshId m) kdx h3 hidk2
      rw [hchar] at hdec2
      have hpost := expectedRun_ends_last j bj cj m _ _ _ hdec2 hek
      have hmem : (emitRun t ctx n).1.get ⟨jdx, h⟩ ∈ (emitRun t ctx n).1.drop (kdx + 1) :=
        get_mem_drop _ (kdx + 1) jdx h (by omega)
      have hin : (emitRun t ctx n).1.get ⟨jdx, h⟩
          ∈ eventsFor ((emitRun t ctx n).1.drop (kdx + 1)) (freshId m) := by
        unfold eventsFor
        exact List.mem_filter.2 ⟨hmem, beq_iff_eq.2 hidm⟩
      rw [hpost] at hin
      simp at hin

/-- Witness for C4: in the concrete trace of `wTree`, the stream envelope
at position 1 has the start at position 0 before it, and every end with
its run id after it. -/
theorem C4_streamOrdering_witness :
    (∃ idx, ∃ h2 : idx < (emitRun wTree ⟨[], []⟩ 0).1.length, idx < 1 ∧
        isStartB ((emitRun wTree ⟨[], []⟩ 0).1.get ⟨idx, h2⟩) = true ∧
        ((emitRun wTree ⟨[], []⟩ 0).1.get ⟨idx, h2⟩).run_id
          = ((emitRun wTree ⟨[], []⟩ 0).1.get ⟨1, by decide⟩).run_id) ∧
    (∀ kdx, ∀ h3 : kdx < (emitRun wTree ⟨[], []⟩ 0).1.length,
        isEndB ((emitRun wTree ⟨[], []⟩ 0).1.get ⟨kdx, h3⟩) = true →
        ((emitRun wTree ⟨[], []⟩ 0).1.get ⟨kdx, h3⟩).run_id
          = ((emitRun wTree ⟨[], []⟩ 0).1.get ⟨1, by decide⟩).run_id →
        1 < kdx) :=
  C4_streamOrdering wTree ⟨[], []⟩ 0 1 (by decide) rfl
